import Mathlib

/-!
Verification of the content indexing and retrieval engine of
`justmeloic/from-first-principles` (directory `src/services/ai/src/indexing/`).

Texts are modelled as `List Char` (one entry per code point, matching Python
string indexing).  Float scores are modelled as exact rationals: every
arithmetic operation appearing in the scoring code (`+`, `*`, `/`, `max`,
`min` on small decimal constants) is order-preserving in IEEE floats exactly
as it is in `ℚ`, and the claims under study are order/shape claims.

External collaborators (the LanceDB store, the sentence-transformer model,
the langchain splitter, the file system) are passed in as explicit
parameters: the functions verified here are the parts implemented in the
repository, applied to the collaborator outputs.
-/

namespace Indexing

/-- Texts are lists of characters (Python `str` by code points). -/
abbrev Text := List Char

/-- Python `str.isspace` / `\s` for the ASCII whitespace characters that the
indexing code ever manipulates (`' '`, `\t`, `\n`, `\r`, `\x0b`, `\x0c`). -/
def pyIsSpace (c : Char) : Bool :=
  c = ' ' || c = '\t' || c = '\n' || c = '\r' || c = '\x0b' || c = '\x0c'

/-- Python `str.strip()`: drop whitespace from both ends. -/
def pyStrip (t : Text) : Text :=
  ((t.dropWhile pyIsSpace).reverse.dropWhile pyIsSpace).reverse

/-- Python truthiness test `not text or not text.strip()`; since
`strip('') = ''` this is equivalent to the single test `strip text = []`. -/
def isBlank (t : Text) : Bool :=
  pyStrip t = []

/-- Helper for `pyWords`: accumulate the current word (reversed). -/
def pyWordsAux : Text → Text → List Text
  | [], cur => if cur = [] then [] else [cur.reverse]
  | c :: rest, cur =>
    if pyIsSpace c then
      if cur = [] then pyWordsAux rest [] else cur.reverse :: pyWordsAux rest []
    else pyWordsAux rest (c :: cur)

/-- Python `str.split()` with no argument: split on whitespace runs,
producing no empty words. -/
def pyWords (t : Text) : List Text :=
  pyWordsAux t []

/-- Helper for `collapseWs`: the flag records whether the previous character
was whitespace (so a whitespace run emits a single `' '`). -/
def collapseWsAux : Bool → Text → Text
  | _, [] => []
  | prevWs, c :: rest =>
    if pyIsSpace c then
      if prevWs then collapseWsAux true rest else ' ' :: collapseWsAux true rest
    else c :: collapseWsAux false rest

/-- Python `re.sub(r'\s+', ' ', text)`: each maximal whitespace run becomes a
single space. -/
def collapseWs (t : Text) : Text :=
  collapseWsAux false t

/-- `TextProcessor.clean_text`: after the first substitution collapses all
whitespace (including newlines) to single spaces, the second substitution
(`\n\s*\n\s*\n+` → `\n\n`) and the two `\r` replacements find nothing, so the
function is the first substitution followed by `strip`. -/
def cleanText (t : Text) : Text :=
  pyStrip (collapseWs t)

/-- Python slice `t[a:b]` for `0 ≤ a ≤ b` (clamping at the end of the list,
as Python slices do). -/
def pySlice (t : Text) (a b : Nat) : Text :=
  (t.drop a).take (b - a)

/-- Decimal digits of `n`, most significant first. -/
def natDigits (n : Nat) : Text :=
  Nat.toDigits 10 n

/-- Python format `{n:03d}`: zero-pad the decimal form of `n` to width 3. -/
def pad3 (n : Nat) : Text :=
  List.replicate (3 - (natDigits n).length) '0' ++ natDigits n

/-- Chunk identifier `f'{category}_{post_slug}_{chunk_index:03d}'`. -/
def mkChunkId (category slug : Text) (idx : Nat) : Text :=
  category ++ '_' :: (slug ++ '_' :: pad3 idx)

/-- Does `pat` occur in `t` starting at position `i`? -/
def isPrefixAt (pat t : Text) (i : Nat) : Bool :=
  pat.isPrefixOf (t.drop i)

/-- Positions of occurrences of `pat` lying inside the slice `t[lo:hi]`
(Python `str.find`/`str.rfind` with bounds require the whole occurrence to
fit inside the slice). -/
def occIdxs (pat t : Text) (lo hi : Nat) : List Nat :=
  (List.range' lo (hi - lo)).filter fun i => i + pat.length ≤ hi && isPrefixAt pat t i

/-- Python `t.rfind(pat, lo, hi)` as an option (Python returns `-1` when the
option is `none`; call sites compare the result against a position, which we
transcribe on the option). -/
def rfindIn (pat t : Text) (lo hi : Nat) : Option Nat :=
  (occIdxs pat t lo hi).getLast?

/-- Python `t.find(pat, lo)` as an option: the first occurrence at or after
`lo`. -/
def findFrom (pat t : Text) (lo : Nat) : Option Nat :=
  ((List.range (t.length + 1)).filter fun i => lo ≤ i && isPrefixAt pat t i).head?

/-- Fuel-driven worker for `countOccs`.  Every step either consumes the
matched occurrence (`pat.length ≥ 1` characters) or one character, so fuel
`t.length` is enough for a nonempty pattern. -/
def countOccsAux (pat : Text) : Nat → Text → Nat
  | 0, _ => 0
  | _, [] => 0
  | fuel + 1, c :: rest =>
    if pat.isPrefixOf (c :: rest) then
      1 + countOccsAux pat fuel ((c :: rest).drop pat.length)
    else
      countOccsAux pat fuel rest

/-- Python `t.count(pat)` for a nonempty pattern: non-overlapping
occurrences, scanning left to right.  (The keyword-search code only counts
query terms, which `split` guarantees nonempty.) -/
def countOccs (pat t : Text) : Nat :=
  countOccsAux pat t.length t

/-- ASCII lowercasing, Python `str.lower` on the ASCII range the content
model uses. -/
def asciiLower (c : Char) : Char :=
  if 'A' ≤ c && c ≤ 'Z' then Char.ofNat (c.toNat + 32) else c

/-- Lowercase a text. -/
def lowerStr (t : Text) : Text :=
  t.map asciiLower

/-! ## Data model (`document.py`, fields used by the indexing pipeline) -/

/-- Model of `ContentChunk` (the fields produced by `TextProcessor`;
`created_at` is a wall-clock timestamp and is not part of any claim, so it
is omitted). -/
structure ContentChunk where
  chunk_id : Text
  post_slug : Text
  category : Text
  content : Text
  chunk_index : Nat
  start_char : Nat
  end_char : Nat
  word_count : Nat
  char_count : Nat
  section_title : Option Text := none
deriving DecidableEq, Repr

/-- Chunking configuration (`ChunkingConfig`). -/
structure ChunkingConfig where
  chunk_size : Nat
  chunk_overlap : Nat
  min_chunk_size : Nat
  preserve_sections : Bool
deriving DecidableEq, Repr

/-! ## `TextProcessor.create_chunks_simple`

The `while` loop advances `start` by at least `chunk_size - chunk_overlap`
per iteration, so `t.length + 1` units of fuel cover every terminating run
(the configurations of interest have `chunk_overlap < chunk_size`; for other
configurations the Python loop may not terminate and the fuel cutoff returns
the chunks produced so far). -/

/-- One loop iteration's break-point adjustment: `end = start + chunk_size`,
pulled back to the last sentence end (`'.'`), else the last paragraph break
(`"\n\n"`), found in the final 100 characters of the window — only when the
window does not already reach the end of the text. -/
def simpleEnd (cfg : ChunkingConfig) (t : Text) (start : Nat) : Nat :=
  let end0 := start + cfg.chunk_size
  if end0 < t.length then
    let searchStart := max (start + cfg.chunk_size - 100) start
    match rfindIn ['.'] t searchStart end0 with
    | some i => if start < i then i + 1 else
        match rfindIn ['\n', '\n'] t searchStart end0 with
        | some j => if start < j then j + 2 else end0
        | none => end0
    | none =>
        match rfindIn ['\n', '\n'] t searchStart end0 with
        | some j => if start < j then j + 2 else end0
        | none => end0
  else end0

/-- The chunk emitted by one iteration of the simple loop at window start
`start` with running index `idx`. -/
def mkSimpleChunk (cfg : ChunkingConfig) (slug category t : Text)
    (start idx : Nat) : ContentChunk :=
  { chunk_id := mkChunkId category slug idx
    post_slug := slug
    category := category
    content := pyStrip (pySlice t start (simpleEnd cfg t start))
    chunk_index := idx
    start_char := start
    end_char := simpleEnd cfg t start
    word_count := (pyWords (pyStrip (pySlice t start (simpleEnd cfg t start)))).length
    char_count := (pyStrip (pySlice t start (simpleEnd cfg t start))).length }

/-- The next window start after emitting a chunk:
`start = max(start + chunk_size - overlap, end - overlap)`. -/
def nextStart (cfg : ChunkingConfig) (t : Text) (start : Nat) : Nat :=
  max (start + cfg.chunk_size - cfg.chunk_overlap)
    (simpleEnd cfg t start - cfg.chunk_overlap)

/-- The `while start < len(text)` loop of `create_chunks_simple`, on the
cleaned text `t`.  A chunk shorter than `min_chunk_size` after stripping is
skipped (`start = end; continue`); otherwise the chunk is emitted and the
window advances to `nextStart` (with the redundant `break` when the new
start passes the end of the text). -/
def simpleLoop (cfg : ChunkingConfig) (slug category : Text) (t : Text) :
    Nat → Nat → Nat → List ContentChunk
  | 0, _, _ => []
  | fuel + 1, start, idx =>
    if start < t.length then
      if (pyStrip (pySlice t start (simpleEnd cfg t start))).length
          < cfg.min_chunk_size then
        simpleLoop cfg slug category t fuel (simpleEnd cfg t start) idx
      else
        mkSimpleChunk cfg slug category t start idx ::
          (if t.length ≤ nextStart cfg t start then []
           else simpleLoop cfg slug category t fuel (nextStart cfg t start) (idx + 1))
    else []

/-- Model of `TextProcessor.create_chunks_simple`. -/
def createChunksSimple (cfg : ChunkingConfig) (text slug category : Text) :
    List ContentChunk :=
  if isBlank text then []
  else
    let t := cleanText text
    simpleLoop cfg slug category t (t.length + 1) 0 0

/-! ## `TextProcessor.extract_sections` and `create_chunks_with_sections` -/

/-- Match of `re.match(r'^(#{3,})\s+(.+)$', line)` on a newline-free line,
returning `group(2).strip()`: at least three leading `#`, then at least one
whitespace character, then at least one further character (the greedy `\s+`
backtracks one character when the remainder is all whitespace). -/
def parseHeaderTitle (line : Text) : Option Text :=
  let hashes := line.takeWhile (· = '#')
  if 3 ≤ hashes.length then
    let rest := line.drop hashes.length
    let ws := rest.takeWhile pyIsSpace
    if 1 ≤ ws.length ∧ 2 ≤ rest.length then
      some (pyStrip (if ws.length = rest.length then rest.drop (rest.length - 1)
                     else rest.drop ws.length))
    else none
  else none

/-- Guarded append `if current_title and current_section.strip()` — a title
that is `None` or the empty string, or a blank section body, emits nothing. -/
def emitSection (curTitle : Option Text) (curSec : Text) : List (Text × Text) :=
  match curTitle with
  | some ttl => if ttl ≠ [] ∧ pyStrip curSec ≠ [] then [(ttl, pyStrip curSec)] else []
  | none => []

/-- Line loop of `extract_sections`: a header line flushes the current
section and starts a new one; any other line is appended (with its newline)
to the current section body. -/
def extractSectionsLoop : List Text → Option Text → Text → List (Text × Text)
  | [], curTitle, curSec => emitSection curTitle curSec
  | line :: rest, curTitle, curSec =>
    match parseHeaderTitle line with
    | some ttl => emitSection curTitle curSec ++ extractSectionsLoop rest (some ttl) []
    | none => extractSectionsLoop rest curTitle (curSec ++ line ++ ['\n'])

/-- Model of `TextProcessor.extract_sections`: split on `'\n'`, run the line
loop, and fall back to a single `('Main Content', text.strip())` section
when no header produced a section and the text is not blank. -/
def extractSections (t : Text) : List (Text × Text) :=
  let secs := extractSectionsLoop (t.splitOn '\n') none []
  if secs = [] ∧ ¬(pyStrip t = []) then [('M' :: "ain Content".toList, pyStrip t)]
  else secs

/-- Re-labelling applied to the sub-chunks of an oversized section: fresh
running `chunk_index` (and matching `chunk_id`), the section's title, and
`start_char`/`end_char` shifted by the section's global offset. -/
def shiftChunk (category slug title : Text) (g idx i : Nat) (c : ContentChunk) :
    ContentChunk :=
  { c with chunk_id := mkChunkId category slug (idx + i)
           chunk_index := idx + i
           section_title := some title
           start_char := c.start_char + g
           end_char := c.end_char + g }

/-- Section loop of `create_chunks_with_sections`: a section at or under
`chunk_size` becomes one chunk; an oversized section is split by
`create_chunks_simple` and its sub-chunks re-labelled by `shiftChunk`.  The
global offset advances by the section length plus 2 per section. -/
def sectionsLoop (cfg : ChunkingConfig) (slug category : Text) :
    List (Text × Text) → Nat → Nat → List ContentChunk
  | [], _, _ => []
  | (title, sec) :: rest, idx, g =>
    if sec.length ≤ cfg.chunk_size then
      { chunk_id := mkChunkId category slug idx
        post_slug := slug
        category := category
        content := pyStrip sec
        chunk_index := idx
        start_char := g
        end_char := g + sec.length
        word_count := (pyWords sec).length
        char_count := sec.length
        section_title := some title } ::
      sectionsLoop cfg slug category rest (idx + 1) (g + sec.length + 2)
    else
      let subs := createChunksSimple cfg sec slug category
      subs.mapIdx (fun i c => shiftChunk category slug title g idx i c) ++
        sectionsLoop cfg slug category rest (idx + subs.length) (g + sec.length + 2)

/-- Model of `TextProcessor.create_chunks_with_sections`. -/
def createChunksWithSections (cfg : ChunkingConfig) (text slug category : Text) :
    List ContentChunk :=
  if isBlank text then []
  else sectionsLoop cfg slug category (extractSections text) 0 0

/-! ## `TextProcessor.create_chunks_langchain`

The external `RecursiveCharacterTextSplitter` is passed in as a `splitter`
parameter; the loop below is the repository's own wrapper around its
output. -/

/-- Located start of a splitter piece: `text.find(chunk_content, start_char)`
with fallback to the running position when not found. -/
def lcChunkStart (t piece : Text) (startChar : Nat) : Nat :=
  (findFrom piece t startChar).getD startChar

/-- The chunk built from one kept splitter piece. -/
def mkLcChunk (slug category t : Text) (i : Nat)
    (piece : Text) (startChar : Nat) : ContentChunk :=
  { chunk_id := mkChunkId category slug i
    post_slug := slug
    category := category
    content := pyStrip piece
    chunk_index := i
    start_char := lcChunkStart t piece startChar
    end_char := lcChunkStart t piece startChar + piece.length
    word_count := (pyWords piece).length
    char_count := piece.length }

/-- Wrapper loop of `create_chunks_langchain` over the enumerated splitter
output: pieces shorter than `min_chunk_size` after stripping are skipped
(but keep consuming enumeration indices); each kept piece is located in the
cleaned text starting from the running `start_char`. -/
def lcLoop (cfg : ChunkingConfig) (slug category : Text) (t : Text) :
    List (Nat × Text) → Nat → List ContentChunk
  | [], _ => []
  | (i, piece) :: rest, startChar =>
    if (pyStrip piece).length < cfg.min_chunk_size then
      lcLoop cfg slug category t rest startChar
    else
      mkLcChunk slug category t i piece startChar ::
        lcLoop cfg slug category t rest
          (lcChunkStart t piece startChar + piece.length)

/-- Model of `TextProcessor.create_chunks_langchain` (available-splitter
case; when the splitter is unavailable the dispatcher falls back to
`createChunksSimple`). -/
def createChunksLangchain (cfg : ChunkingConfig) (splitter : Text → List Text)
    (text slug category : Text) : List ContentChunk :=
  if isBlank text then []
  else
    let t := cleanText text
    lcLoop cfg slug category t ((splitter t).enumFrom 0) 0

/-- Model of `TextProcessor.create_chunks`: strategy dispatch on
`preserve_sections`, then on availability of the langchain splitter. -/
def createChunks (cfg : ChunkingConfig) (langchainAvailable : Bool)
    (splitter : Text → List Text) (text slug category : Text) : List ContentChunk :=
  if isBlank text then []
  else if cfg.preserve_sections then createChunksWithSections cfg text slug category
  else if langchainAvailable then createChunksLangchain cfg splitter text slug category
  else createChunksSimple cfg text slug category

/-! ## `IndexingPipeline.search` (semantic search)

The LanceDB call `content_table.search(query_embedding).limit(limit)`
(optionally with a category predicate) is external; its output
`search_query.to_list()` enters the model as the `rows` parameter, each row
carrying the store's squared-Euclidean `_distance`.  The code below is the
result-formatting loop that the repository implements. -/

/-- Fields of a store row that the semantic formatting loop reads. -/
structure SemRow where
  title : Text
  category : Text
  post_slug : Text
  content : Text
  publish_date : Text
  tags : List Text
  url : Text
  distance : ℚ
deriving DecidableEq, Repr

/-- Formatted semantic search result. -/
structure SemResult where
  title : Text
  category : Text
  slug : Text
  content : Text
  excerpt : Text
  score : ℚ
  distance : ℚ
  publish_date : Text
  tags : List Text
  url : Text
deriving DecidableEq, Repr

/-- Distance-to-similarity conversion used by `IndexingPipeline.search`:
`max(0.0, 1.0 - distance / 4.0)` with the fixed cap `max_distance = 4.0`. -/
def semScore (d : ℚ) : ℚ :=
  max 0 (1 - d / 4)

/-- Per-row body of the result-formatting loop of `IndexingPipeline.search`:
convert the row's distance to a score and keep the row exactly when
`similarity_score >= similarity_threshold`. -/
def semFormat (threshold : ℚ) (r : SemRow) : Option SemResult :=
  if threshold ≤ semScore r.distance then
    some { title := r.title
           category := r.category
           slug := r.post_slug
           content := r.content
           excerpt := r.content.take 200 ++ ('.' :: '.' :: ['.'])
           score := semScore r.distance
           distance := r.distance
           publish_date := r.publish_date
           tags := r.tags
           url := r.url }
  else none

/-- Result-formatting loop of `IndexingPipeline.search`, preserving the
store's order. -/
def semanticSearch (rows : List SemRow) (threshold : ℚ) : List SemResult :=
  rows.filterMap (semFormat threshold)

/-! ## `IndexingPipeline.keyword_search`

The candidate rows come from the external store's over-fetching OR-predicate
query (`limit * 2` rows); the scoring, filtering, sorting and truncation
below are the repository's own code. -/

/-- Keyword search result (`score` is the clipped relevance score,
`term_matches` the accumulated per-field match counter). -/
structure KwResult where
  title : Text
  category : Text
  slug : Text
  content : Text
  excerpt : Text
  score : ℚ
  term_matches : Nat
  publish_date : Text
  tags : List Text
  url : Text
deriving DecidableEq, Repr

/-- Per-term body of the scoring loop, acting on the (possibly lowercased)
content and title: `0.1` per content occurrence plus a `0.3` early-position
bonus when the first occurrence starts before character 100, `0.5` per
title occurrence; `term_matches` is incremented once for a content hit and
once more for a title hit. -/
def kwStep (content title : Text) (acc : ℚ × Nat) (term : Text) : ℚ × Nat :=
  let cm := countOccs term content
  let tm := countOccs term title
  let acc1 : ℚ × Nat :=
    if 0 < cm then
      let early : ℚ := if (findFrom term content 0).getD 0 < 100 then 3/10 else 0
      (acc.1 + cm * (1/10) + early, acc.2 + 1)
    else acc
  if 0 < tm then (acc1.1 + tm * (5/10), acc1.2 + 1) else acc1

/-- The `for term in query_terms` scoring loop, accumulating
`(score, term_matches)` from `(0, 0)`. -/
def kwFold (content title : Text) (terms : List Text) : ℚ × Nat :=
  terms.foldl (kwStep content title) (0, 0)

/-- Total pre-clip relevance score of one candidate: loop total plus the
multi-term coverage bonus `(term_matches / len(query_terms)) * 0.5`, added
only when the query has more than one term. -/
def kwScore (content title : Text) (terms : List Text) : ℚ :=
  let p := kwFold content title terms
  p.1 + (if 1 < terms.length then ((p.2 : ℚ) / (terms.length : ℚ)) * (5/10) else 0)

/-- Fields of a candidate row that the keyword scoring loop reads. -/
structure KwRow where
  title : Text
  category : Text
  post_slug : Text
  content : Text
  publish_date : Text
  tags : List Text
  url : Text
deriving DecidableEq, Repr

/-- Score one candidate row and keep it only when its score is positive,
clipping the reported score at `1.0` (`min(score, 1.0)`). -/
def kwScoreRow (terms : List Text) (caseSensitive : Bool) (r : KwRow) :
    Option KwResult :=
  let content := if caseSensitive then r.content else lowerStr r.content
  let title := if caseSensitive then r.title else lowerStr r.title
  let lterms := terms.map fun t => if caseSensitive then t else lowerStr t
  let p := kwFold content title lterms
  let score := p.1 +
    (if 1 < lterms.length then ((p.2 : ℚ) / (lterms.length : ℚ)) * (5/10) else 0)
  if 0 < score then
    some { title := r.title
           category := r.category
           slug := r.post_slug
           content := r.content
           excerpt := r.content.take 200 ++ ('.' :: '.' :: ['.'])
           score := min score 1
           term_matches := p.2
           publish_date := r.publish_date
           tags := r.tags
           url := r.url }
  else none

/-- Stable descending insertion, matching the stability of Python's
`list.sort(key=..., reverse=True)`: an element moves past exactly the
elements with strictly greater score. -/
def insertDesc (a : KwResult) : List KwResult → List KwResult
  | [] => [a]
  | b :: rest => if b.score ≤ a.score then a :: b :: rest else b :: insertDesc a rest

/-- Stable sort by descending `score`. -/
def sortDescByScore (l : List KwResult) : List KwResult :=
  l.foldr insertDesc []

/-- Model of `IndexingPipeline.keyword_search` applied to the candidate rows
returned by the store: split the query into terms (lowercased unless
`case_sensitive`), score every candidate, discard zero scores, sort by
descending score, truncate to `limit`. -/
def keywordSearch (rows : List KwRow) (query : Text) (limit : Nat)
    (caseSensitive : Bool) : List KwResult :=
  let terms := if caseSensitive then pyWords query else pyWords (lowerStr query)
  (sortDescByScore (rows.filterMap (kwScoreRow terms caseSensitive))).take limit

/-! ## `EmbeddingGenerator` (`embedder.py`)

The sentence-transformer model is external; `model.encode` applied to a
batch is modelled as the element-wise application of a pure function
`model : Text → Vec` (inference has no cross-item effect).  The in-memory
cache is read through the `cache` parameter (a disabled cache is
`fun _ => none`).  The cache writes performed by
`generate_embeddings_batch` mutate only the cache state — they store
exactly the value just computed and are consulted only by later calls — so
they do not affect the value returned by the call being modelled. -/

/-- Embedding vectors as lists of exact rationals. -/
abbrev Vec := List ℚ

/-- Model of `EmbeddingGenerator._truncate_text`: texts longer than the
maximum sequence length are cut at `max_length`, preferring the last `'.'`
when it lies beyond `0.8 * max_length` (the float constant `0.8` is exact
enough for the comparison of an integer position against it). -/
def truncateText (maxLen : Nat) (t : Text) : Text :=
  if maxLen < t.length then
    let tr := t.take maxLen
    match rfindIn ['.'] tr 0 tr.length with
    | some i => if (maxLen : ℚ) * (4/5) < (i : ℚ) then tr.take (i + 1) else tr
    | none => tr
  else t

/-- First pass of `generate_embeddings_batch`, from running index `i`: empty
texts are dropped, cached texts are recorded with their index, the rest are
stripped, truncated and queued with their index. -/
def pass1From (cache : Text → Option Vec) (maxLen : Nat) :
    Nat → List Text → List (Nat × Vec) × List Text × List Nat
  | _, [] => ([], [], [])
  | i, t :: ts =>
    let rest := pass1From cache maxLen (i + 1) ts
    if isBlank t then rest
    else
      match cache t with
      | some e => ((i, e) :: rest.1, rest.2.1, rest.2.2)
      | none => (rest.1, truncateText maxLen (pyStrip t) :: rest.2.1, i :: rest.2.2)

/-- Fuel-driven worker for `batches`; `range(0, len, batch_size)` performs at
most `len` steps when `batch_size ≥ 1`. -/
def batchesAux (bs : Nat) : Nat → List Text → List (List Text)
  | 0, _ => []
  | _, [] => []
  | fuel + 1, l => l.take bs :: batchesAux bs fuel (l.drop bs)

/-- The batching loop `for i in range(0, len(valid_texts), batch_size)`. -/
def batches (bs : Nat) (l : List Text) : List (List Text) :=
  batchesAux bs l.length l

/-- Placement of the cached embeddings into the result array
(`result[i] = embedding` for each cached index, in increasing index order,
matching dict insertion order). -/
def applyCached (cached : List (Nat × Vec)) (res : List (Option Vec)) :
    List (Option Vec) :=
  cached.foldl (fun r p => r.set p.1 (some p.2)) res

/-- Placement of the freshly computed embeddings: walk `valid_indices` in
order and fill each still-`None` slot with the next new embedding. -/
def fillNew : List (Option Vec) → List Nat → List Vec → List (Option Vec)
  | res, [], _ => res
  | res, i :: is, news =>
    match res.getD i none with
    | none => fillNew (res.set i (some (news.headD []))) is news.tail
    | some _ => fillNew res is news

/-- Model of `EmbeddingGenerator.generate_embeddings_batch`:
filter/cache pass, batched encoding of the non-cached texts, reassembly into
an index-aligned array of options, and removal of the `None` slots left by
empty inputs. -/
def generateEmbeddingsBatch (maxLen bs : Nat) (cache : Text → Option Vec)
    (model : Text → Vec) (texts : List Text) : List Vec :=
  if texts = [] then []
  else
    let p1 := pass1From cache maxLen 0 texts
    let news := ((batches bs p1.2.1).map fun b => b.map model).flatten
    let res1 := applyCached p1.1 (List.replicate texts.length none)
    let res2 := fillNew res1 p1.2.2 news
    res2.filterMap id

/-- Model of `EmbeddingVector` (fields used downstream; `created_at`,
`processing_time_ms` and `vector_hash` are wall-clock/digest metadata with
no role in any claim). -/
structure EmbVec where
  chunk_id : Text
  vector : Vec
  vector_dim : Nat
  model_name : Text
  model_version : Option Text := none
deriving DecidableEq, Repr

/-- Model of `EmbeddingGenerator.create_embedding_vectors`: embed the chunk
contents in batch and zip the chunks with the returned vectors. -/
def createEmbeddingVectors (maxLen bs : Nat) (cache : Text → Option Vec)
    (model : Text → Vec) (modelName : Text) (chunks : List ContentChunk) :
    List EmbVec :=
  if chunks = [] then []
  else
    let embs := generateEmbeddingsBatch maxLen bs cache model (chunks.map (·.content))
    (chunks.zip embs).map fun p =>
      { chunk_id := p.1.chunk_id
        vector := p.2
        vector_dim := p.2.length
        model_name := modelName
        model_version := none }

/-! ## `IndexingPipeline._store_embeddings` (`builder.py`) -/

/-- Post metadata fields read by the pipeline. -/
structure PostMeta where
  slug : Text
  category : Text
  title : Text
deriving DecidableEq, Repr

/-- Loaded post (`BlogPost` fields used by the pipeline). -/
structure PostData where
  metadata : PostMeta
  processed_content : Text
deriving DecidableEq, Repr

/-- Persisted row of the content table (timestamp/digest columns omitted as
above). -/
structure Record where
  chunk_id : Text
  post_slug : Text
  category : Text
  title : Text
  content : Text
  chunk_index : Nat
  start_char : Nat
  end_char : Nat
  word_count : Nat
  section_title : Text
  vector : Vec
  vector_dim : Nat
  model_name : Text
  model_version : Text
deriving DecidableEq, Repr

/-- The content table, one row per stored chunk; `LanceDB.add` appends. -/
abbrev Table := List Record

/-- Python `a or b` for strings: `b` when `a` is empty. -/
def orElseText (a b : Text) : Text :=
  if a = [] then b else a

/-- Record preparation for one `(chunk, embedding)` pair at zip position
`i`, transcribing the `or`-defaults of the source (`x or fallback` falls
back on empty string / zero / `None`) and the dimension auto-correction:
when `len(record['vector']) != record['vector_dim']` the declared dimension
is overwritten with `len(vector)`. -/
def mkRecord (post : PostMeta) (i : Nat) (c : ContentChunk) (e : EmbVec) : Record :=
  { chunk_id := orElseText e.chunk_id ('c' :: ("hunk_".toList ++ natDigits i))
    post_slug := orElseText post.slug ("unknown".toList)
    category := orElseText post.category ("uncategorized".toList)
    title := orElseText post.title ("Untitled".toList)
    content := pyStrip c.content
    chunk_index := if c.chunk_index = 0 then i else c.chunk_index
    start_char := c.start_char
    end_char := if c.end_char = 0 then c.content.length else c.end_char
    word_count := if c.word_count = 0 then (pyWords c.content).length else c.word_count
    section_title := c.section_title.getD []
    vector := e.vector
    vector_dim :=
      let vd0 := if e.vector_dim = 0 then e.vector.length else e.vector_dim
      if e.vector.length ≠ vd0 then e.vector.length else vd0
    model_name := orElseText e.model_name ("unknown".toList)
    model_version := e.model_version.getD [] }

/-- Validation loop of `_store_embeddings` over the zipped pairs: a pair is
skipped (loop `continue`) when its content is empty after stripping or its
vector is empty; every other pair contributes one prepared record. -/
def prepLoop (post : PostMeta) : Nat → List (ContentChunk × EmbVec) → List Record
  | _, [] => []
  | i, (c, e) :: rest =>
    if pyStrip c.content = [] then prepLoop post (i + 1) rest
    else if e.vector = [] then prepLoop post (i + 1) rest
    else mkRecord post i c e :: prepLoop post (i + 1) rest

/-- Rows inserted by one `_store_embeddings` call: nothing on the
empty-input or length-mismatch guards, else the prepared records (inserting
an empty prepared list is also a no-op). -/
def storeEmbeddingsData (post : PostMeta) (chunks : List ContentChunk)
    (embs : List EmbVec) : List Record :=
  if chunks = [] ∨ embs = [] then []
  else if chunks.length ≠ embs.length then []
  else prepLoop post 0 (chunks.zip embs)

/-! ## `IndexingPipeline.index_all_content` and `index_single_post`

Per-post processing (chunk → embed → store) can raise: the embedding model
and the store insert are external calls.  The loop below is therefore
parametrised by `process`, the body of the per-post `try` block, returning
either `(len(chunks), len(embedding_vectors), rows inserted)` or the error
message recorded by the `except` branch.  `processPostPure` is the
exception-free instantiation built from the component models above. -/

/-- Model of `IndexingResult` (operation id, timestamps and timing metrics
omitted; `posts_updated` is an `Int` because the source computes it as
`posts_processed - posts_skipped`, which is negative when every post
fails). -/
structure IndexingResult where
  posts_processed : Nat := 0
  posts_updated : Int := 0
  posts_skipped : Nat := 0
  chunks_created : Nat := 0
  embeddings_generated : Nat := 0
  errors : List Text := []
  warnings : List Text := []
  status : Text := 'r' :: ("unning".toList)
deriving DecidableEq, Repr

/-- The `for post in posts` loop of `index_all_content`: a successful post
adds its chunk/embedding counts, increments `posts_processed` and appends
its rows to the table; a failing post increments `posts_skipped`, appends
the error message, and the loop continues with the next post. -/
def processLoop (process : PostData → Except Text (Nat × Nat × List Record)) :
    List PostData → IndexingResult → Table → IndexingResult × Table
  | [], res, tbl => (res, tbl)
  | p :: rest, res, tbl =>
    match process p with
    | .ok o =>
      processLoop process rest
        { res with
          chunks_created := res.chunks_created + o.1
          embeddings_generated := res.embeddings_generated + o.2.1
          posts_processed := res.posts_processed + 1 }
        (tbl ++ o.2.2)
    | .error m =>
      processLoop process rest
        { res with
          posts_skipped := res.posts_skipped + 1
          errors := res.errors ++ [m] }
        tbl

/-- The optional category filter applied to the loaded posts before the
indexing loop. -/
def keptPosts (categoryFilter : Option Text) (posts : List PostData) :
    List PostData :=
  match categoryFilter with
  | some c => posts.filter fun p => p.metadata.category = c
  | none => posts

/-- Model of `IndexingPipeline.index_all_content`: optional category filter,
early completed return with a warning when no posts remain, otherwise the
per-post loop followed by `posts_updated = posts_processed - posts_skipped`
and an unconditional `completed` status.  `force_reindex` is accepted and
never read, as in the source. -/
def indexAllContent (process : PostData → Except Text (Nat × Nat × List Record))
    (categoryFilter : Option Text) (_forceReindex : Bool)
    (posts : List PostData) (table : Table) : IndexingResult × Table :=
  let kept := keptPosts categoryFilter posts
  if kept = [] then
    ({ warnings := ['N' :: ("o posts found to index".toList)]
       status := 'c' :: ("ompleted".toList) }, table)
  else
    let r := processLoop process kept {} table
    ({ r.1 with
       posts_updated := (r.1.posts_processed : Int) - (r.1.posts_skipped : Int)
       status := 'c' :: ("ompleted".toList) }, r.2)

/-- Exception-free per-post body assembled from the component models:
chunking, batch embedding, and the rows that `_store_embeddings` inserts
when embedding vectors exist and the table is available. -/
def processPostPure (cfg : ChunkingConfig) (la : Bool) (splitter : Text → List Text)
    (maxLen bs : Nat) (cache : Text → Option Vec) (model : Text → Vec)
    (modelName : Text) (tableAvailable : Bool) (p : PostData) :
    Nat × Nat × List Record :=
  let chunks := createChunks cfg la splitter p.processed_content
    p.metadata.slug p.metadata.category
  if chunks = [] then (0, 0, [])
  else
    let evs := createEmbeddingVectors maxLen bs cache model modelName chunks
    let recs := if evs ≠ [] ∧ tableAvailable then
        storeEmbeddingsData p.metadata chunks evs
      else []
    (chunks.length, evs.length, recs)

/-- Model of `IndexingPipeline.index_single_post`: look the post up (a
missing post fails the operation), chunk it, create embedding vectors and
record the counts.  No path touches the content table, which is threaded
through unchanged.  Error-message texts model the formatted Python
messages. -/
def indexSinglePost (cfg : ChunkingConfig) (la : Bool)
    (splitter : Text → List Text) (lookup : Option PostData)
    (embed : List ContentChunk → Except Text (List EmbVec)) (table : Table) :
    IndexingResult × Table :=
  match lookup with
  | none =>
    ({ errors := ['P' :: ("ost not found".toList)]
       status := 'f' :: ("ailed".toList) }, table)
  | some post =>
    let chunks := createChunks cfg la splitter post.processed_content
      post.metadata.slug post.metadata.category
    if chunks = [] then
      ({ posts_processed := 1, posts_updated := 1
         status := 'c' :: ("ompleted".toList) }, table)
    else
      match embed chunks with
      | .error m =>
        ({ errors := [m], status := 'f' :: ("ailed".toList) }, table)
      | .ok evs =>
        ({ posts_processed := 1, posts_updated := 1
           chunks_created := chunks.length
           embeddings_generated := evs.length
           status := 'c' :: ("ompleted".toList) }, table)

/-! ## `ContentLoader.load_all_posts` (`loader.py`)

Discovery and the two load steps touch the file system; each discovered
post directory enters the model as the outcome its processing produces:
metadata parse failure, exclusion by status, full-load failure, or a loaded
post.  The messages model the formatted
`f'Error loading post from {post_dir}: {e}'` strings. -/

/-- Outcome of processing one discovered post directory. -/
inductive DirOutcome where
  | metaErr (msg : Text)
  | excluded
  | loadErr (msg : Text)
  | loaded (post : PostData)
deriving DecidableEq, Repr

/-- The `for post_dir in self.discover_posts()` loop: failures append a
message to the local `errors` list, exclusions are silent, and loaded posts
are appended to `posts`, in discovery order. -/
def loadAllAux : List DirOutcome → List PostData × List Text
  | [] => ([], [])
  | d :: rest =>
    let r := loadAllAux rest
    match d with
    | .metaErr m => (r.1, m :: r.2)
    | .excluded => r
    | .loadErr m => (r.1, m :: r.2)
    | .loaded p => (p :: r.1, r.2)

/-- Model of `ContentLoader.load_all_posts`: the function returns only the
`posts` list; the `errors` list accumulated by `loadAllAux` is local to the
call (the source merely prints its length). -/
def loadAllPosts (dirs : List DirOutcome) : List PostData :=
  (loadAllAux dirs).1

/-! ## Derived descriptions used in theorem statements -/

/-- Closed-form per-term score contribution of the keyword scoring loop. -/
def termContrib (content title term : Text) : ℚ :=
  (if 0 < countOccs term content then
    (countOccs term content : ℚ) * (1/10) +
      (if (findFrom term content 0).getD 0 < 100 then 3/10 else 0)
   else 0) +
  (if 0 < countOccs term title then (countOccs term title : ℚ) * (5/10) else 0)

/-- Closed-form per-term `term_matches` contribution of the keyword scoring
loop: one for a content hit plus one for a title hit (a term present in
both fields counts twice). -/
def termFields (content title term : Text) : Nat :=
  (if 0 < countOccs term content then 1 else 0) +
  (if 0 < countOccs term title then 1 else 0)

/-- Modelled from the spec's wording for refutation only: the claimed
keyword score, whose coverage bonus uses the number of DISTINCT matched
terms (a term matching both content and title counted once). -/
def claimedKwScore (content title : Text) (terms : List Text) : ℚ :=
  let distinct : Nat := (terms.filter fun t =>
    0 < countOccs t content ∨ 0 < countOccs t title).length
  min ((terms.map fun t => termContrib content title t).sum +
    (if 1 < terms.length then ((distinct : ℚ) / (terms.length : ℚ)) * (5/10) else 0)) 1

/-- The candidate-validity test of the `_store_embeddings` loop: nonempty
stripped content and nonempty vector. -/
def validPair (p : ContentChunk × EmbVec) : Bool :=
  !(pyStrip p.1.content).isEmpty && !p.2.vector.isEmpty

/-- Error message of a per-post outcome, if any. -/
def errOf {α : Type} : Except Text α → Option Text
  | .error m => some m
  | .ok _ => none

/-- Rows inserted by one full indexing pass over `posts` (the concatenation
of the successful posts' row batches). -/
def postsRecs (process : PostData → Except Text (Nat × Nat × List Record))
    (posts : List PostData) : List Record :=
  (posts.map fun p => match process p with
    | .ok o => o.2.2
    | .error _ => []).flatten

/-- The post carried by a directory outcome, if it loaded. -/
def loadedPost? : DirOutcome → Option PostData
  | .loaded p => some p
  | _ => none

/-- The error message carried by a directory outcome, if it failed. -/
def dirErr? : DirOutcome → Option Text
  | .metaErr m => some m
  | .loadErr m => some m
  | _ => none

/-- Chunk count reported by a successful per-post outcome. -/
def okChunks : Except Text (Nat × Nat × List Record) → Nat
  | .ok o => o.1
  | .error _ => 0

/-- Embedding count reported by a successful per-post outcome. -/
def okEmbs : Except Text (Nat × Nat × List Record) → Nat
  | .ok o => o.2.1
  | .error _ => 0

/-! ## Concrete instances for witnesses and counterexamples -/

/-- Simple-strategy configuration: window 10, overlap 2, minimum 1. -/
def cfgW : ChunkingConfig := ⟨10, 2, 1, false⟩

/-- Langchain-strategy configuration with minimum chunk size 3. -/
def cfgLC : ChunkingConfig := ⟨10, 2, 3, false⟩

/-- A splitter that is never consulted on the simple path. -/
def splNone : Text → List Text := fun _ => []

/-- A splitter whose first piece is below the minimum chunk size. -/
def splSmallFirst : Text → List Text :=
  fun _ => [['a'], 'b' :: ("cdef".toList)]

/-- An always-empty embedding cache (`enable_embedding_cache = False`). -/
def cacheNone : Text → Option Vec := fun _ => none

/-- A deterministic stand-in embedding model: the text length as a
one-dimensional vector. -/
def modelLen : Text → Vec := fun t => [(t.length : ℚ)]

/-- A concrete post used by the pipeline counterexamples. -/
def postW : PostData := ⟨⟨'p' :: ("ost".toList), 'b' :: ("log".toList),
  'T' :: []⟩, 'h' :: ("ello world.".toList)⟩

/-- Exception-free per-post processing for the concrete pipeline runs. -/
def procW : PostData → Except Text (Nat × Nat × List Record) :=
  fun p => .ok (processPostPure cfgW false splNone 512 1 cacheNone modelLen
    ('m' :: ("odel".toList)) true p)

/-- Keyword-search candidate content: the term `a` occurs once, at
position 100 (no early bonus). -/
def contentC : Text := List.replicate 100 'x' ++ ['a']

/-- Keyword-search candidate title, matching `a` once. -/
def titleC : Text := ['a']

/-- A keyword-search candidate whose single matching term occurs once in
the content (late) and once in the title. -/
def rowC : KwRow := ⟨titleC, 'b' :: ("log".toList), ['s'], contentC, [], [], []⟩

/-- A three-term query of which only `a` matches `rowC`. -/
def queryC : Text := 'a' :: (" b c".toList)

/-- The keyword result produced for `rowC` under `queryC`: the term `a`
scores `0.1` (one late content occurrence) `+ 0.5` (one title occurrence),
and the coverage bonus counts `term_matches = 2` (content hit plus title
hit) out of 3 terms, giving `3/5 + 1/3 = 14/15`. -/
def resC : KwResult :=
  ⟨titleC, 'b' :: ("log".toList), ['s'], contentC,
   contentC ++ ('.' :: '.' :: ['.']), 14/15, 2, [], [], []⟩

/-- Semantic store rows at distances 0 and 2, in store (ascending) order. -/
def semRowsW : List SemRow :=
  [⟨['t'], 'b' :: ("log".toList), ['s'], ['x'], [], [], [], 0⟩,
   ⟨['u'], 'b' :: ("log".toList), ['s'], ['y'], [], [], [], 2⟩]

/-- The result formatted from the first row of `semRowsW`
(distance 0, score 1). -/
def semRes0 : SemResult :=
  ⟨['t'], 'b' :: ("log".toList), ['s'], ['x'], 'x' :: ('.' :: '.' :: ['.']),
   1, 0, [], [], []⟩

/-- A chunk/embedding pair whose declared dimension (5) disagrees with its
two-entry vector. -/
def chunkW : ContentChunk :=
  ⟨'b' :: ("log_post_000".toList), 'p' :: ("ost".toList), 'b' :: ("log".toList),
   'h' :: ("ello".toList), 0, 0, 5, 1, 5, none⟩

/-- Embedding for `chunkW` with a deliberately wrong `vector_dim`. -/
def embW : EmbVec :=
  ⟨'b' :: ("log_post_000".toList), [1, 2], 5, 'm' :: ("odel".toList), none⟩

/-- The text of `postW`. -/
def textW : Text := 'h' :: ("ello world.".toList)

/-- Slug of `postW`. -/
def slugW : Text := 'p' :: ("ost".toList)

/-- Category of `postW`. -/
def catW : Text := 'b' :: ("log".toList)

/-- First chunk of `createChunksSimple cfgW textW slugW catW`. -/
def chunkS0 : ContentChunk :=
  ⟨'b' :: ("log_post_000".toList), slugW, catW, 'h' :: ("ello worl".toList),
   0, 0, 10, 2, 10, none⟩

/-- Batch-embedding inputs with an empty text in the middle. -/
def textsW : List Text := ['a' :: ['b'], [], 'c' :: ('d' :: ['e'])]

/-! # Theorems -/

/-! ## Loader (C9) -/

theorem loadAllAux_eq (dirs : List DirOutcome) :
    loadAllAux dirs = (dirs.filterMap loadedPost?, dirs.filterMap dirErr?) := by
  induction dirs with
  | nil => rfl
  | cons d rest ih => cases d <;> simp [loadAllAux, loadedPost?, dirErr?, ih]

/-- C9: `load_all_posts` never propagates a per-document failure — a failed
directory only contributes an error message to the local error list, and
every successfully loaded post is returned, in discovery order.  The claim's
second half is refuted by `load_all_posts_drops_error_messages`: the error
list is local to the call and is not part of the return value. -/
theorem load_all_posts_error_isolation (dirs : List DirOutcome) :
    loadAllPosts dirs = dirs.filterMap loadedPost? ∧
    (loadAllAux dirs).2 = dirs.filterMap dirErr? := by
  rw [loadAllPosts, loadAllAux_eq]
  exact ⟨rfl, rfl⟩

/-- C9 counterexample: on a corpus where one directory fails, the value
returned by `load_all_posts` is just the loaded posts; runs whose failures
carry different error messages return identical values, so the list of
per-document error messages is not returned to the caller. -/
theorem load_all_posts_drops_error_messages :
    loadAllPosts [.loadErr ('b' :: ("oom".toList)), .loaded postW] = [postW] ∧
    loadAllPosts [.loadErr ('b' :: ("oom".toList)), .loaded postW]
      = loadAllPosts [.loadErr ['x'], .loaded postW] :=
  ⟨rfl, rfl⟩

/-! ## Store-layer record validation (C7) -/

theorem mkRecord_vector_dim (post : PostMeta) (i : Nat) (c : ContentChunk)
    (e : EmbVec) : (mkRecord post i c e).vector_dim = e.vector.length := by
  unfold mkRecord
  by_cases h0 : e.vector_dim = 0
  · simp [h0]
  · simp only [h0, if_false]
    split <;> omega

/-- C7: in the `_store_embeddings` preparation loop a chunk/embedding pair
is skipped exactly when its content is empty after stripping or its vector
is empty — every other pair contributes its prepared record, so a
dimension mismatch never causes a rejection — and every prepared record is
stored with `vector_dim` equal to the true vector length. -/
theorem store_embeddings_validation (post : PostMeta)
    (pairs : List (ContentChunk × EmbVec)) (i : Nat) :
    prepLoop post i pairs
      = ((pairs.enumFrom i).filter fun q => validPair q.2).map
          (fun q => mkRecord post q.1 q.2.1 q.2.2) ∧
    ∀ r ∈ prepLoop post i pairs, r.vector_dim = r.vector.length := by
  constructor
  · induction pairs generalizing i with
    | nil => rfl
    | cons p rest ih =>
      obtain ⟨c, e⟩ := p
      by_cases h1 : pyStrip c.content = [] <;> by_cases h2 : e.vector = [] <;>
        simp [prepLoop, validPair, List.enumFrom, h1, h2, ih]
  · intro r hr
    induction pairs generalizing i with
    | nil => simp [prepLoop] at hr
    | cons p rest ih =>
      obtain ⟨c, e⟩ := p
      by_cases h1 : pyStrip c.content = [] <;> by_cases h2 : e.vector = []
      · exact ih (i + 1) (by simpa [prepLoop, h1] using hr)
      · exact ih (i + 1) (by simpa [prepLoop, h1] using hr)
      · exact ih (i + 1) (by simpa [prepLoop, h1, h2] using hr)
      · rcases (by simpa [prepLoop, h1, h2] using hr :
          r = mkRecord post i c e ∨ r ∈ prepLoop post (i + 1) rest) with h | h
        · subst h
          exact mkRecord_vector_dim post i c e
        · exact ih (i + 1) h

/-- C7 witness: the concrete pair `(chunkW, embW)` declares `vector_dim = 5`
against a two-entry vector; it is inserted with the dimension corrected
to 2. -/
theorem store_embeddings_validation_witness :
    (mkRecord postW.metadata 0 chunkW embW).vector_dim
      = (mkRecord postW.metadata 0 chunkW embW).vector.length :=
  (store_embeddings_validation postW.metadata [(chunkW, embW)] 0).2
    (mkRecord postW.metadata 0 chunkW embW) (by decide)

/-! ## Indexing pipeline loop (C8, C4, C10) -/

theorem processLoop_spec (process : PostData → Except Text (Nat × Nat × List Record))
    (posts : List PostData) (res : IndexingResult) (tbl : Table) :
    processLoop process posts res tbl =
      ({ posts_processed :=
           res.posts_processed + posts.countP fun p => (errOf (process p)).isNone
         posts_updated := res.posts_updated
         posts_skipped :=
           res.posts_skipped + posts.countP fun p => (errOf (process p)).isSome
         chunks_created :=
           res.chunks_created + (posts.map fun p => okChunks (process p)).sum
         embeddings_generated :=
           res.embeddings_generated + (posts.map fun p => okEmbs (process p)).sum
         errors := res.errors ++ posts.filterMap fun p => errOf (process p)
         warnings := res.warnings
         status := res.status },
       tbl ++ postsRecs process posts) := by
  induction posts generalizing res tbl with
  | nil => simp [processLoop, postsRecs]
  | cons p rest ih =>
    cases h : process p with
    | ok o =>
      simp [processLoop, h, ih, postsRecs, errOf, okChunks, okEmbs,
        List.countP_cons, List.append_assoc]
      omega
    | error m =>
      simp [processLoop, h, ih, postsRecs, errOf, okChunks, okEmbs,
        List.countP_cons, List.append_assoc]
      omega

/-- C8: during `index_all_content` a failing post is caught inside the
per-post loop — its message is appended to `errors`, `posts_skipped` is
incremented, and the loop continues, so every later successful post still
contributes its rows; the operation always finishes with status
`completed`, which therefore means "the loop finished", not "zero
errors". -/
theorem index_all_content_error_isolation
    (process : PostData → Except Text (Nat × Nat × List Record))
    (categoryFilter : Option Text) (forceReindex : Bool)
    (posts : List PostData) (table : Table) :
    (indexAllContent process categoryFilter forceReindex posts table).1.status
        = 'c' :: ("ompleted".toList) ∧
    (indexAllContent process categoryFilter forceReindex posts table).1.errors
        = ((keptPosts categoryFilter posts).filterMap fun p => errOf (process p)) ∧
    (indexAllContent process categoryFilter forceReindex posts table).1.posts_skipped
        = ((keptPosts categoryFilter posts).countP
            fun p => (errOf (process p)).isSome) ∧
    (indexAllContent process categoryFilter forceReindex posts table).1.posts_processed
        = ((keptPosts categoryFilter posts).countP
            fun p => (errOf (process p)).isNone) ∧
    (indexAllContent process categoryFilter forceReindex posts table).2
        = table ++ postsRecs process (keptPosts categoryFilter posts) := by
  simp only [indexAllContent]
  by_cases h : keptPosts categoryFilter posts = []
  · simp [h, postsRecs]
  · simp [h, processLoop_spec, postsRecs]

/-- C4 (amended): with a fixed per-post processing function, re-running
`index_all_content` on the same posts appends a second, identical batch of
rows — the same chunk IDs in the same order — instead of superseding the
first batch: the stored record count grows by the batch size on every run
rather than staying unchanged. -/
theorem index_all_content_rerun_appends
    (process : PostData → Except Text (Nat × Nat × List Record))
    (categoryFilter : Option Text) (forceReindex : Bool)
    (posts : List PostData) (table : Table) :
    let recs := postsRecs process (keptPosts categoryFilter posts)
    (indexAllContent process categoryFilter forceReindex posts table).2
      = table ++ recs ∧
    (indexAllContent process categoryFilter forceReindex posts
        (indexAllContent process categoryFilter forceReindex posts table).2).2
      = table ++ recs ++ recs ∧
    (indexAllContent process categoryFilter forceReindex posts
        (indexAllContent process categoryFilter forceReindex posts table).2).2.length
      = table.length + recs.length + recs.length := by
  intro recs
  have key : ∀ tbl : Table,
      (indexAllContent process categoryFilter forceReindex posts tbl).2
        = tbl ++ recs := by
    intro tbl
    rw [indexAllContent]
    by_cases h : keptPosts categoryFilter posts = []
    · simp [h, recs, postsRecs]
    · simp [h, processLoop_spec, recs]
  refine ⟨key table, ?_, ?_⟩
  · rw [key, key, List.append_assoc]
  · rw [key, key]
    simp only [List.append_assoc, List.length_append]
    omega

/-- C4 counterexample: indexing the one-post corpus `[postW]` twice starting
from an empty table doubles the stored record count (4 rows) relative to a
single run (2 rows), refuting "the second run leaves the stored record
count unchanged". -/
theorem index_all_content_rerun_duplicates :
    ¬ ((indexAllContent procW none false [postW]
          (indexAllContent procW none false [postW] []).2).2.length
        = (indexAllContent procW none false [postW] []).2.length) := by
  decide

/-- C10: `index_single_post` never writes to the content table — the table
is returned unchanged on every path (post missing, no chunks, embedding
failure, success) — while on the successful path the returned result
records the chunk and embedding-vector counts. -/
theorem index_single_post_frame (cfg : ChunkingConfig) (la : Bool)
    (splitter : Text → List Text) (lookup : Option PostData)
    (embed : List ContentChunk → Except Text (List EmbVec)) (table : Table) :
    ((indexSinglePost cfg la splitter lookup embed table).2 = table) ∧
    (∀ post evs, lookup = some post →
      embed (createChunks cfg la splitter post.processed_content
        post.metadata.slug post.metadata.category) = .ok evs →
      createChunks cfg la splitter post.processed_content
        post.metadata.slug post.metadata.category ≠ [] →
      (indexSinglePost cfg la splitter lookup embed table).1.chunks_created
          = (createChunks cfg la splitter post.processed_content
              post.metadata.slug post.metadata.category).length ∧
      (indexSinglePost cfg la splitter lookup embed table).1.embeddings_generated
          = evs.length) := by
  constructor
  · cases lookup with
    | none => rfl
    | some post =>
      rw [indexSinglePost]
      split
      · rfl
      · cases h : embed (createChunks cfg la splitter post.processed_content
          post.metadata.slug post.metadata.category) <;> simp [h]
  · intro post evs hl he hne
    subst hl
    rw [indexSinglePost]
    simp [hne, he]

/-- C10 witness: indexing the concrete post `postW` with a successful
embedder leaves a (here empty) table unchanged and records the two chunks
that `createChunks` produces for it. -/
theorem index_single_post_frame_witness :
    ((indexSinglePost cfgW false splNone (some postW)
        (fun _ => .ok [embW]) []).2 = ([] : Table)) ∧
    ((indexSinglePost cfgW false splNone (some postW)
        (fun _ => .ok [embW]) []).1.chunks_created
      = (createChunks cfgW false splNone postW.processed_content
          postW.metadata.slug postW.metadata.category).length) :=
  ⟨(index_single_post_frame cfgW false splNone (some postW)
      (fun _ => .ok [embW]) []).1,
   ((index_single_post_frame cfgW false splNone (some postW)
      (fun _ => .ok [embW]) []).2 postW [embW] rfl rfl (by decide)).1⟩

/-! ## Chunk identifiers (C5) -/

theorem simpleLoop_chunk_id (cfg : ChunkingConfig) (slug category t : Text) :
    ∀ fuel start idx, ∀ c ∈ simpleLoop cfg slug category t fuel start idx,
      c.chunk_id = mkChunkId category slug c.chunk_index := by
  intro fuel
  induction fuel with
  | zero => intro start idx c hc; exact absurd hc (by simp [simpleLoop])
  | succ n ih =>
    intro start idx c hc
    rw [simpleLoop] at hc
    split at hc
    · split at hc
      · exact ih _ _ c hc
      · rcases List.mem_cons.mp hc with rfl | hc'
        · rfl
        · split at hc'
          · exact absurd hc' (List.not_mem_nil c)
          · exact ih _ _ c hc'
    · exact absurd hc (List.not_mem_nil c)

theorem lcLoop_chunk_id (cfg : ChunkingConfig) (slug category t : Text) :
    ∀ pairs startChar, ∀ c ∈ lcLoop cfg slug category t pairs startChar,
      c.chunk_id = mkChunkId category slug c.chunk_index := by
  intro pairs
  induction pairs with
  | nil => intro s c hc; exact absurd hc (by simp [lcLoop])
  | cons p rest ih =>
    intro s c hc
    obtain ⟨i, piece⟩ := p
    rw [lcLoop] at hc
    split at hc
    · exact ih _ c hc
    · rcases List.mem_cons.mp hc with rfl | hc'
      · rfl
      · exact ih _ c hc'

theorem sectionsLoop_chunk_id (cfg : ChunkingConfig) (slug category : Text) :
    ∀ secs idx g, ∀ c ∈ sectionsLoop cfg slug category secs idx g,
      c.chunk_id = mkChunkId category slug c.chunk_index := by
  intro secs
  induction secs with
  | nil => intro idx g c hc; exact absurd hc (by simp [sectionsLoop])
  | cons s rest ih =>
    intro idx g c hc
    obtain ⟨title, sec⟩ := s
    rw [sectionsLoop] at hc
    split at hc
    · rcases List.mem_cons.mp hc with rfl | hc'
      · rfl
      · exact ih _ _ c hc'
    · rcases List.mem_append.mp hc with h | h
      · rw [List.mapIdx_eq_enum_map] at h
        obtain ⟨⟨i, c0⟩, _, rfl⟩ := List.mem_map.mp h
        rfl
      · exact ih _ _ c h

/-- C5: every chunk produced by `create_chunks` (any strategy, any
configuration) carries `chunk_id = '{category}_{slug}_{chunk_index:03d}'`
built from its own `chunk_index`, and two invocations on identical inputs
with an identical configuration (and identical external splitter) produce
identical `chunk_id` sequences. -/
theorem create_chunks_id_format_deterministic (cfg : ChunkingConfig)
    (la : Bool) (splitter : Text → List Text) (text slug category : Text) :
    (∀ c ∈ createChunks cfg la splitter text slug category,
      c.chunk_id = mkChunkId category slug c.chunk_index) ∧
    (createChunks cfg la splitter text slug category).map (·.chunk_id)
      = (createChunks cfg la splitter text slug category).map (·.chunk_id) := by
  refine ⟨?_, rfl⟩
  intro c hc
  rw [createChunks] at hc
  split at hc
  · exact absurd hc (List.not_mem_nil c)
  · split at hc
    · rw [createChunksWithSections] at hc
      split at hc
      · exact absurd hc (List.not_mem_nil c)
      · exact sectionsLoop_chunk_id cfg slug category _ _ _ c hc
    · split at hc
      · rw [createChunksLangchain] at hc
        split at hc
        · exact absurd hc (List.not_mem_nil c)
        · exact lcLoop_chunk_id cfg slug category _ _ _ c hc
      · rw [createChunksSimple] at hc
        split at hc
        · exact absurd hc (List.not_mem_nil c)
        · exact simpleLoop_chunk_id cfg slug category _ _ _ _ c hc

/-- C5 witness: the first chunk of the concrete simple-strategy run carries
the identifier built from its own index. -/
theorem create_chunks_id_format_deterministic_witness :
    chunkS0.chunk_id = mkChunkId catW slugW chunkS0.chunk_index :=
  (create_chunks_id_format_deterministic cfgW false splNone textW slugW catW).1
    chunkS0 (by decide)

/-! ## Chunk ordering (C6) -/

theorem simpleEnd_gt (cfg : ChunkingConfig) (t : Text) (start : Nat)
    (h1 : 1 ≤ cfg.chunk_size) : start < simpleEnd cfg t start := by
  simp only [simpleEnd]
  repeat' split
  all_goals omega

theorem simpleLoop_ordering (cfg : ChunkingConfig) (slug category t : Text)
    (hov : cfg.chunk_overlap < cfg.chunk_size) :
    ∀ fuel start idx,
      ((simpleLoop cfg slug category t fuel start idx).map (·.chunk_index)
          = List.range' idx (simpleLoop cfg slug category t fuel start idx).length) ∧
      (∀ c ∈ simpleLoop cfg slug category t fuel start idx,
          start ≤ c.start_char ∧ c.start_char < t.length) ∧
      List.Chain' (fun a b : ContentChunk => a.start_char ≤ b.start_char)
        (simpleLoop cfg slug category t fuel start idx) := by
  intro fuel
  induction fuel with
  | zero =>
    intro start idx
    refine ⟨rfl, ?_, ?_⟩ <;> simp [simpleLoop]
  | succ n ih =>
    intro start idx
    rw [simpleLoop]
    split
    case isFalse => refine ⟨rfl, ?_, ?_⟩ <;> simp
    case isTrue hlt =>
      have hse : start < simpleEnd cfg t start :=
        simpleEnd_gt cfg t start (by omega)
      split
      case isTrue hsmall =>
        obtain ⟨hmap, hbd, hch⟩ := ih (simpleEnd cfg t start) idx
        exact ⟨hmap, fun c hc => ⟨by have := (hbd c hc).1; omega, (hbd c hc).2⟩, hch⟩
      case isFalse hsmall =>
        have hml := le_max_left (start + cfg.chunk_size - cfg.chunk_overlap)
          (simpleEnd cfg t start - cfg.chunk_overlap)
        have hns : start + 1 ≤ nextStart cfg t start := by
          rw [nextStart]; omega
        split
        case isTrue hbreak =>
          refine ⟨rfl, ?_, ?_⟩
          · intro c hc
            rcases List.mem_cons.mp hc with rfl | hc'
            · exact ⟨le_refl _, hlt⟩
            · exact absurd hc' (List.not_mem_nil c)
          · simp [List.chain'_singleton]
        case isFalse hbreak =>
          obtain ⟨hmap, hbd, hch⟩ := ih (nextStart cfg t start) (idx + 1)
          refine ⟨?_, ?_, ?_⟩
          · simp only [List.map_cons, List.length_cons, List.range'_succ]
            rw [hmap]
            rfl
          · intro c hc
            rcases List.mem_cons.mp hc with rfl | hc'
            · exact ⟨le_refl _, hlt⟩
            · exact ⟨by have := (hbd c hc').1; omega, (hbd c hc').2⟩
          · rw [List.chain'_cons']
            refine ⟨?_, hch⟩
            intro y hy
            have hym := List.mem_of_mem_head? hy
            have := (hbd y hym).1
            show start ≤ y.start_char
            omega

theorem collapseWsAux_length_le : ∀ (b : Bool) (t : Text),
    (collapseWsAux b t).length ≤ t.length := by
  intro b t
  induction t generalizing b with
  | nil => simp [collapseWsAux]
  | cons c rest ih =>
    rw [collapseWsAux]
    split
    · split
      · exact Nat.le_succ_of_le (ih true)
      · simpa using ih true
    · simpa using ih false

theorem pyStrip_length_le (t : Text) : (pyStrip t).length ≤ t.length := by
  rw [pyStrip]
  calc ((t.dropWhile pyIsSpace).reverse.dropWhile pyIsSpace).reverse.length
      = ((t.dropWhile pyIsSpace).reverse.dropWhile pyIsSpace).length := by
        rw [List.length_reverse]
    _ ≤ (t.dropWhile pyIsSpace).reverse.length :=
        (List.dropWhile_sublist pyIsSpace).length_le
    _ = (t.dropWhile pyIsSpace).length := by rw [List.length_reverse]
    _ ≤ t.length := (List.dropWhile_sublist pyIsSpace).length_le

theorem cleanText_length_le (t : Text) : (cleanText t).length ≤ t.length :=
  le_trans (pyStrip_length_le (collapseWs t)) (collapseWsAux_length_le false t)

theorem createChunksSimple_ordering (cfg : ChunkingConfig)
    (text slug category : Text) (hov : cfg.chunk_overlap < cfg.chunk_size) :
    ((createChunksSimple cfg text slug category).map (·.chunk_index)
        = List.range (createChunksSimple cfg text slug category).length) ∧
    (∀ c ∈ createChunksSimple cfg text slug category,
        c.start_char < text.length) ∧
    List.Chain' (fun a b : ContentChunk => a.start_char ≤ b.start_char)
      (createChunksSimple cfg text slug category) := by
  rw [createChunksSimple]
  split
  · exact ⟨rfl, by simp, by simp⟩
  · obtain ⟨hmap, hbd, hch⟩ :=
      simpleLoop_ordering cfg slug category (cleanText text) hov
        ((cleanText text).length + 1) 0 0
    refine ⟨by rw [hmap, List.range_eq_range'], ?_, hch⟩
    intro c hc
    exact lt_of_lt_of_le (hbd c hc).2 (cleanText_length_le text)

theorem sectionsLoop_ordering (cfg : ChunkingConfig) (slug category : Text)
    (hov : cfg.chunk_overlap < cfg.chunk_size) :
    ∀ secs idx g,
      ((sectionsLoop cfg slug category secs idx g).map (·.chunk_index)
          = List.range' idx (sectionsLoop cfg slug category secs idx g).length) ∧
      (∀ c ∈ sectionsLoop cfg slug category secs idx g, g ≤ c.start_char) ∧
      List.Chain' (fun a b : ContentChunk => a.start_char ≤ b.start_char)
        (sectionsLoop cfg slug category secs idx g) := by
  intro secs
  induction secs with
  | nil =>
    intro idx g
    refine ⟨rfl, ?_, ?_⟩ <;> simp [sectionsLoop]
  | cons s rest ih =>
    intro idx g
    obtain ⟨title, sec⟩ := s
    rw [sectionsLoop]
    split
    case isTrue hsz =>
      obtain ⟨hmap, hbd, hch⟩ := ih (idx + 1) (g + sec.length + 2)
      refine ⟨?_, ?_, ?_⟩
      · simp only [List.map_cons, List.length_cons, List.range'_succ]
        rw [hmap]
      · intro c hc
        rcases List.mem_cons.mp hc with rfl | hc'
        · exact le_refl _
        · have := hbd c hc'
          show g ≤ c.start_char
          omega
      · rw [List.chain'_cons']
        refine ⟨?_, hch⟩
        intro y hy
        have := hbd y (List.mem_of_mem_head? hy)
        show g ≤ y.start_char
        omega
    case isFalse hsz =>
      have hsubs := createChunksSimple_ordering cfg sec slug category hov
      obtain ⟨hmap, hbd, hch⟩ := ih (idx + (createChunksSimple cfg sec slug category).length)
        (g + sec.length + 2)
      have F1 : (createChunksSimple cfg sec slug category).mapIdx
            (fun i c => shiftChunk category slug title g idx i c)
          = (createChunksSimple cfg sec slug category).enum.map
              (Function.uncurry fun i c => shiftChunk category slug title g idx i c) :=
        List.mapIdx_eq_enum_map
      have F2 : ((createChunksSimple cfg sec slug category).mapIdx
            (fun i c => shiftChunk category slug title g idx i c)).length
          = (createChunksSimple cfg sec slug category).length := by
        rw [F1, List.length_map, List.enum_length]
      have F4 : ∀ x ∈ (createChunksSimple cfg sec slug category).mapIdx
            (fun i c => shiftChunk category slug title g idx i c),
          g ≤ x.start_char ∧ x.start_char < g + sec.length := by
        intro x hx
        rw [F1] at hx
        obtain ⟨⟨i, c0⟩, hmem, rfl⟩ := List.mem_map.mp hx
        have hc0 : c0 ∈ createChunksSimple cfg sec slug category :=
          List.snd_mem_of_mem_enum hmem
        have hlt := hsubs.2.1 c0 hc0
        constructor
        · show g ≤ c0.start_char + g
          omega
        · show c0.start_char + g < g + sec.length
          omega
      have F3 : ((createChunksSimple cfg sec slug category).mapIdx
            (fun i c => shiftChunk category slug title g idx i c)).map (·.chunk_index)
          = List.range' idx (createChunksSimple cfg sec slug category).length := by
        rw [F1, List.map_map]
        have hcomp : ((fun c : ContentChunk => c.chunk_index) ∘
              Function.uncurry fun i c => shiftChunk category slug title g idx i c)
            = (fun i => idx + i) ∘ Prod.fst := by
          funext p
          cases p
          rfl
        rw [hcomp, ← List.map_map, List.enum_map_fst, ← List.range'_eq_map_range]
      have F5 : List.Chain' (fun a b : ContentChunk => a.start_char ≤ b.start_char)
          ((createChunksSimple cfg sec slug category).mapIdx
            (fun i c => shiftChunk category slug title g idx i c)) := by
        rw [F1, List.chain'_map]
        have hc := hsubs.2.2
        rw [← List.enum_map_snd (createChunksSimple cfg sec slug category),
          List.chain'_map] at hc
        exact hc.imp fun {p q} h => by
          show p.2.start_char + g ≤ q.2.start_char + g
          omega
      refine ⟨?_, ?_, ?_⟩
      · rw [List.map_append, F3, hmap, List.length_append, F2]
        have := List.range'_append idx (createChunksSimple cfg sec slug category).length
          (sectionsLoop cfg slug category rest
            (idx + (createChunksSimple cfg sec slug category).length)
            (g + sec.length + 2)).length 1
        simp only [one_mul] at this
        rw [this, Nat.add_comm]
      · intro c hc
        rcases List.mem_append.mp hc with h | h
        · exact (F4 c h).1
        · have := hbd c h
          show g ≤ c.start_char
          omega
      · refine List.Chain'.append F5 hch ?_
        intro x hx y hy
        have hxm := (F4 x (List.mem_of_mem_getLast? hx)).2
        have hym := hbd y (List.mem_of_mem_head? hy)
        show x.start_char ≤ y.start_char
        omega

theorem findFrom_ge (pat t : Text) (lo j : Nat) (h : findFrom pat t lo = some j) :
    lo ≤ j := by
  rw [findFrom] at h
  have hm : j ∈ (List.range (t.length + 1)).filter
      (fun i => lo ≤ i && isPrefixAt pat t i) :=
    List.mem_of_mem_head? (Option.mem_def.mpr h)
  have := List.of_mem_filter hm
  simp only [Bool.and_eq_true, decide_eq_true_eq] at this
  exact this.1

theorem lcChunkStart_ge (t piece : Text) (startChar : Nat) :
    startChar ≤ lcChunkStart t piece startChar := by
  rw [lcChunkStart]
  cases h : findFrom piece t startChar with
  | none => simp
  | some j => simpa using findFrom_ge piece t startChar j h

theorem lcLoop_ordering (cfg : ChunkingConfig) (slug category t : Text) :
    ∀ (l : List Text) (n startChar : Nat),
      (∀ c ∈ lcLoop cfg slug category t (l.enumFrom n) startChar,
          startChar ≤ c.start_char ∧ n ≤ c.chunk_index) ∧
      List.Chain' (fun a b : ContentChunk => a.start_char ≤ b.start_char)
        (lcLoop cfg slug category t (l.enumFrom n) startChar) ∧
      List.Chain' (fun a b : ContentChunk => a.chunk_index < b.chunk_index)
        (lcLoop cfg slug category t (l.enumFrom n) startChar) := by
  intro l
  induction l with
  | nil =>
    intro n s
    refine ⟨?_, ?_, ?_⟩ <;> simp [lcLoop, List.enumFrom]
  | cons piece rest ih =>
    intro n s
    rw [List.enumFrom_cons, lcLoop]
    split
    case isTrue hsmall =>
      obtain ⟨hbd, hch1, hch2⟩ := ih (n + 1) s
      exact ⟨fun c hc => ⟨(hbd c hc).1, by have := (hbd c hc).2; omega⟩, hch1, hch2⟩
    case isFalse hsmall =>
      obtain ⟨hbd, hch1, hch2⟩ := ih (n + 1) (lcChunkStart t piece s + piece.length)
      have hs := lcChunkStart_ge t piece s
      refine ⟨?_, ?_, ?_⟩
      · intro c hc
        rcases List.mem_cons.mp hc with rfl | hc'
        · exact ⟨hs, le_refl n⟩
        · have := hbd c hc'
          refine ⟨?_, by omega⟩
          have h1 := this.1
          omega
      · rw [List.chain'_cons']
        refine ⟨?_, hch1⟩
        intro y hy
        have := (hbd y (List.mem_of_mem_head? hy)).1
        show lcChunkStart t piece s ≤ y.start_char
        omega
      · rw [List.chain'_cons']
        refine ⟨?_, hch2⟩
        intro y hy
        have := (hbd y (List.mem_of_mem_head? hy)).2
        show n < y.chunk_index
        omega

/-- C6 (amended): for every strategy, assuming
`chunk_size > chunk_overlap`, `start_char` is non-decreasing across
consecutive chunks and `chunk_index` is strictly increasing; for the simple
and section-aware strategies `chunk_index` moreover equals the chunk's
position in the returned list.  For the langchain strategy the
`enumerate`-based indices skip values whenever a sub-minimum piece is
filtered out, so there `chunk_index` can differ from the list position
(refuted at a concrete input by `create_chunks_index_vs_position`). -/
theorem create_chunks_ordering (cfg : ChunkingConfig) (la : Bool)
    (splitter : Text → List Text) (text slug category : Text)
    (hov : cfg.chunk_overlap < cfg.chunk_size) :
    List.Chain' (fun a b : ContentChunk => a.start_char ≤ b.start_char)
      (createChunks cfg la splitter text slug category) ∧
    List.Chain' (fun a b : ContentChunk => a.chunk_index < b.chunk_index)
      (createChunks cfg la splitter text slug category) ∧
    ((cfg.preserve_sections = true ∨ la = false) →
      (createChunks cfg la splitter text slug category).map (·.chunk_index)
        = List.range (createChunks cfg la splitter text slug category).length) := by
  rw [createChunks]
  split
  case isTrue => exact ⟨by simp, by simp, fun _ => rfl⟩
  case isFalse hblank =>
    split
    case isTrue hps =>
      rw [createChunksWithSections]
      split
      case isTrue h2 => exact absurd h2 hblank
      case isFalse =>
        obtain ⟨hmap, _, hch⟩ :=
          sectionsLoop_ordering cfg slug category hov (extractSections text) 0 0
        refine ⟨hch, ?_, fun _ => by rw [hmap, List.range_eq_range']⟩
        have hlt : List.Chain' (· < ·)
            ((sectionsLoop cfg slug category (extractSections text) 0 0).map
              (·.chunk_index)) := by
          rw [hmap]
          exact (List.pairwise_lt_range' 0 _).chain'
        exact (List.chain'_map _).mp hlt
    case isFalse hps =>
      split
      case isTrue hla =>
        rw [createChunksLangchain]
        split
        case isTrue h2 => exact absurd h2 hblank
        case isFalse =>
          obtain ⟨_, hch1, hch2⟩ := lcLoop_ordering cfg slug category
            (cleanText text) (splitter (cleanText text)) 0 0
          refine ⟨hch1, hch2, ?_⟩
          intro hdisj
          rcases hdisj with h | h
          · exact absurd h hps
          · rw [h] at hla
            exact absurd hla (by simp)
      case isFalse hla =>
        obtain ⟨hmap, _, hch⟩ :=
          createChunksSimple_ordering cfg text slug category hov
        refine ⟨hch, ?_, fun _ => hmap⟩
        have hlt : List.Chain' (· < ·)
            ((createChunksSimple cfg text slug category).map (·.chunk_index)) := by
          rw [hmap, List.range_eq_range']
          exact (List.pairwise_lt_range' 0 _).chain'
        exact (List.chain'_map _).mp hlt

/-- C6 witness: the concrete simple-strategy run satisfies the
index-equals-position property. -/
theorem create_chunks_ordering_witness :
    (createChunks cfgW false splNone textW slugW catW).map (·.chunk_index)
      = List.range (createChunks cfgW false splNone textW slugW catW).length :=
  (create_chunks_ordering cfgW false splNone textW slugW catW (by decide)).2.2
    (Or.inr rfl)

/-- C6 counterexample: with the langchain strategy and a splitter whose
first piece falls below `min_chunk_size`, the single returned chunk has
`chunk_index = 1` at list position 0 (the configuration satisfies
`chunk_size > chunk_overlap`), refuting "chunk_index equals position in the
returned list" for that strategy. -/
theorem create_chunks_index_vs_position :
    ¬ ((createChunks cfgLC true splSmallFirst ('a' :: ("bcdef".toList))
          slugW catW).map (·.chunk_index)
        = List.range (createChunks cfgLC true splSmallFirst
            ('a' :: ("bcdef".toList)) slugW catW).length) := by
  decide

/-! ## Semantic search scoring (C1) -/

theorem semFormat_some (threshold : ℚ) (r : SemRow) (res : SemResult)
    (h : semFormat threshold r = some res) :
    res.distance = r.distance ∧ res.score = semScore r.distance ∧
      threshold ≤ res.score := by
  rw [semFormat] at h
  split at h
  case isTrue hth =>
    obtain rfl := Option.some.inj h
    exact ⟨rfl, rfl, hth⟩
  case isFalse => exact absurd h (by simp)

theorem semScore_nonneg (d : ℚ) : 0 ≤ semScore d :=
  le_max_left 0 _

theorem semScore_le_one (d : ℚ) (hd : 0 ≤ d) : semScore d ≤ 1 := by
  rw [semScore]
  have h4 : (0 : ℚ) ≤ d / 4 := by positivity
  exact max_le (by norm_num) (by linarith)

theorem semScore_antitone (d₁ d₂ : ℚ) (h : d₁ < d₂) : semScore d₂ ≤ semScore d₁ := by
  rw [semScore, semScore]
  exact max_le_max (le_refl 0) (by linarith)

/-- C1: every result returned by the semantic-search formatting loop has
`score = max(0, 1 - distance / 4.0)`, at least the requested similarity
threshold, and (for the store's non-negative squared distances) a score in
`[0, 1]`; a strictly closer result never scores lower; and when the store
returns its rows in ascending distance order the returned results are in
ascending distance order as well. -/
theorem semantic_search_scoring (rows : List SemRow) (threshold : ℚ)
    (hpos : ∀ r ∈ rows, 0 ≤ r.distance)
    (hsorted : rows.Pairwise fun a b => a.distance ≤ b.distance) :
    (∀ res ∈ semanticSearch rows threshold,
        res.score = max 0 (1 - res.distance / 4) ∧
        threshold ≤ res.score ∧ 0 ≤ res.score ∧ res.score ≤ 1) ∧
    (∀ a ∈ semanticSearch rows threshold, ∀ b ∈ semanticSearch rows threshold,
        a.distance < b.distance → b.score ≤ a.score) ∧
    (semanticSearch rows threshold).Pairwise
      (fun a b => a.distance ≤ b.distance) := by
  have hmem : ∀ res ∈ semanticSearch rows threshold,
      res.score = semScore res.distance ∧ threshold ≤ res.score ∧
        0 ≤ res.distance := by
    intro res hres
    obtain ⟨r, hr, hsome⟩ := List.mem_filterMap.mp hres
    obtain ⟨hd, hs, hth⟩ := semFormat_some threshold r res hsome
    exact ⟨by rw [hs, hd], hth, hd ▸ hpos r hr⟩
  refine ⟨?_, ?_, ?_⟩
  · intro res hres
    obtain ⟨hs, hth, hd⟩ := hmem res hres
    exact ⟨hs, hth, hs ▸ semScore_nonneg res.distance,
      hs ▸ semScore_le_one res.distance hd⟩
  · intro a ha b hb hab
    have hsa := (hmem a ha).1
    have hsb := (hmem b hb).1
    rw [hsa, hsb]
    exact semScore_antitone a.distance b.distance hab
  · rw [semanticSearch, List.pairwise_filterMap]
    refine hsorted.imp ?_
    intro r r' hrr res hres res' hres'
    have h1 := (semFormat_some threshold r res (Option.mem_def.mp hres)).1
    have h2 := (semFormat_some threshold r' res' (Option.mem_def.mp hres')).1
    rw [h1, h2]
    exact hrr

/-- C1 witness: on the concrete two-row store output (distances 0 and 2,
ascending) with threshold `1/2`, the first returned result satisfies the
scoring, threshold, and range facts. -/
theorem semantic_search_scoring_witness :
    semRes0.score = max 0 (1 - semRes0.distance / 4) ∧
    (1/2 : ℚ) ≤ semRes0.score ∧ 0 ≤ semRes0.score ∧ semRes0.score ≤ 1 :=
  (semantic_search_scoring semRowsW (1/2)
    (by intro r hr; fin_cases hr <;> norm_num [semRowsW])
    (by norm_num [semRowsW, List.pairwise_cons])).1
    semRes0
    (by
      have hs : semScore 0 = 1 := by
        rw [semScore]
        rw [show (1 : ℚ) - 0 / 4 = 1 by norm_num]
        exact max_eq_right (by norm_num)
      have h1 : semFormat (1/2)
          (⟨['t'], 'b' :: ("log".toList), ['s'], ['x'], [], [], [], 0⟩ : SemRow)
          = some semRes0 := by
        rw [semFormat]
        rw [if_pos (by rw [hs]; norm_num)]
        rw [semRes0]
        simp [hs]
      rw [semanticSearch, semRowsW]
      simp only [List.filterMap_cons, h1]
      exact List.mem_cons_self _ _)

/-! ## Keyword search scoring (C2) -/

theorem kwStep_eq (content title term : Text) (s : ℚ) (m : Nat) :
    kwStep content title (s, m) term
      = (s + termContrib content title term, m + termFields content title term) := by
  rw [kwStep, termContrib, termFields]
  by_cases hc : 0 < countOccs term content <;>
    by_cases ht : 0 < countOccs term title <;>
      simp only [hc, ht, if_true, if_false, ite_true, ite_false] <;>
        exact Prod.ext (by ring) (by omega)

theorem kwFold_sum (content title : Text) (terms : List Text) :
    kwFold content title terms
      = ((terms.map fun t => termContrib content title t).sum,
         (terms.map fun t => termFields content title t).sum) := by
  rw [kwFold]
  suffices h : ∀ init : ℚ × Nat, terms.foldl (kwStep content title) init
      = (init.1 + (terms.map fun t => termContrib content title t).sum,
         init.2 + (terms.map fun t => termFields content title t).sum) by
    simpa using h (0, 0)
  induction terms with
  | nil => intro init; simp
  | cons t ts ih =>
    intro init
    obtain ⟨s, m⟩ := init
    rw [List.foldl_cons, kwStep_eq, ih]
    simp only [List.map_cons, List.sum_cons, Prod.mk.injEq]
    exact ⟨by ring, by omega⟩

theorem insertDesc_perm (a : KwResult) (l : List KwResult) :
    (insertDesc a l).Perm (a :: l) := by
  induction l with
  | nil => exact List.Perm.refl _
  | cons b rest ih =>
    rw [insertDesc]
    split
    · exact List.Perm.refl _
    · exact (ih.cons b).trans (List.Perm.swap a b rest)

theorem sortDescByScore_perm (l : List KwResult) : (sortDescByScore l).Perm l := by
  induction l with
  | nil => exact List.Perm.refl _
  | cons x xs ih => exact (insertDesc_perm x (sortDescByScore xs)).trans (ih.cons x)

theorem insertDesc_sorted (a : KwResult) (l : List KwResult)
    (hl : l.Pairwise fun x y => y.score ≤ x.score) :
    (insertDesc a l).Pairwise fun x y => y.score ≤ x.score := by
  induction l with
  | nil => simp [insertDesc]
  | cons b rest ih =>
    rw [List.pairwise_cons] at hl
    rw [insertDesc]
    split
    case isTrue hba =>
      rw [List.pairwise_cons]
      refine ⟨?_, List.pairwise_cons.mpr hl⟩
      intro y hy
      rcases List.mem_cons.mp hy with rfl | hy'
      · exact hba
      · exact le_trans (hl.1 y hy') hba
    case isFalse hba =>
      rw [List.pairwise_cons]
      refine ⟨?_, ih hl.2⟩
      intro y hy
      rcases List.mem_cons.mp ((insertDesc_perm a rest).mem_iff.mp hy) with rfl | hy'
      · exact le_of_lt (lt_of_not_le hba)
      · exact hl.1 y hy'

theorem sortDescByScore_sorted (l : List KwResult) :
    (sortDescByScore l).Pairwise fun x y => y.score ≤ x.score := by
  induction l with
  | nil => simp [sortDescByScore]
  | cons x xs ih => exact insertDesc_sorted x (sortDescByScore xs) ih

theorem kwScoreRow_some (terms : List Text) (cs : Bool) (r : KwRow)
    (res : KwResult) (h : kwScoreRow terms cs r = some res) :
    0 < res.score ∧ res.score ≤ 1 ∧
    res.score = min (kwScore (if cs then r.content else lowerStr r.content)
        (if cs then r.title else lowerStr r.title)
        (terms.map fun t => if cs then t else lowerStr t)) 1 ∧
    res.term_matches = (kwFold (if cs then r.content else lowerStr r.content)
        (if cs then r.title else lowerStr r.title)
        (terms.map fun t => if cs then t else lowerStr t)).2 := by
  simp only [kwScoreRow] at h
  by_cases hsc : 0 < (kwFold (if cs = true then r.content else lowerStr r.content)
      (if cs = true then r.title else lowerStr r.title)
      (terms.map fun t => if cs = true then t else lowerStr t)).1 +
      (if 1 < (terms.map fun t => if cs = true then t else lowerStr t).length then
        (((kwFold (if cs = true then r.content else lowerStr r.content)
          (if cs = true then r.title else lowerStr r.title)
          (terms.map fun t => if cs = true then t else lowerStr t)).2 : ℚ) /
          ((terms.map fun t => if cs = true then t else lowerStr t).length : ℚ)) * (5/10)
      else 0)
  · rw [if_pos hsc] at h
    obtain rfl := Option.some.inj h
    exact ⟨lt_min hsc one_pos, min_le_right _ _, rfl, rfl⟩
  · rw [if_neg hsc] at h
    exact absurd h (by simp)

/-- C2 (amended): the keyword scoring loop computes, for each examined
candidate, `0.1` per content occurrence of a term plus a `0.3` bonus when
the term first occurs before character 100, plus `0.5` per title occurrence,
plus — when the query has more than one term — a coverage bonus of
`0.5 * term_matches / |T|` where `term_matches` counts one for a term's
content hit PLUS one for its title hit (so a term present in both fields
counts twice, unlike the claimed "distinct terms matched"); scores are
clipped at `1.0`, zero-score candidates are discarded, and the survivors
are returned sorted by descending score and truncated to `limit`. -/
theorem keyword_search_scoring (rows : List KwRow) (query : Text)
    (limit : Nat) (caseSensitive : Bool) :
    (∀ content title terms, kwFold content title terms
        = ((terms.map fun t => termContrib content title t).sum,
           (terms.map fun t => termFields content title t).sum)) ∧
    (∀ res ∈ keywordSearch rows query limit caseSensitive,
        0 < res.score ∧ res.score ≤ 1) ∧
    (keywordSearch rows query limit caseSensitive).Pairwise
      (fun a b => b.score ≤ a.score) ∧
    (keywordSearch rows query limit caseSensitive).length ≤ limit := by
  refine ⟨kwFold_sum, ?_, ?_, ?_⟩
  · intro res hres
    rw [keywordSearch] at hres
    have h1 : res ∈ sortDescByScore
        (rows.filterMap (kwScoreRow (if caseSensitive then pyWords query
          else pyWords (lowerStr query)) caseSensitive)) :=
      (List.take_sublist _ _).subset hres
    have h2 := (sortDescByScore_perm _).mem_iff.mp h1
    obtain ⟨r, _, hsome⟩ := List.mem_filterMap.mp h2
    obtain ⟨hp, hle, _, _⟩ := kwScoreRow_some _ caseSensitive r res hsome
    exact ⟨hp, hle⟩
  · rw [keywordSearch]
    exact List.Pairwise.sublist (List.take_sublist _ _) (sortDescByScore_sorted _)
  · rw [keywordSearch]
    exact List.length_take_le _ _

theorem termContrib_a : termContrib contentC titleC ['a'] = 3/5 := by
  rw [termContrib]
  rw [show countOccs ['a'] contentC = 1 from by decide]
  rw [show countOccs ['a'] titleC = 1 from by decide]
  rw [show (findFrom ['a'] contentC 0).getD 0 = 100 from by decide]
  norm_num

theorem termContrib_b : termContrib contentC titleC ['b'] = 0 := by
  rw [termContrib]
  rw [show countOccs ['b'] contentC = 0 from by decide]
  rw [show countOccs ['b'] titleC = 0 from by decide]
  norm_num

theorem termContrib_c : termContrib contentC titleC ['c'] = 0 := by
  rw [termContrib]
  rw [show countOccs ['c'] contentC = 0 from by decide]
  rw [show countOccs ['c'] titleC = 0 from by decide]
  norm_num

theorem kwFold_rowC : kwFold contentC titleC [['a'], ['b'], ['c']] = (3/5, 2) := by
  rw [kwFold_sum]
  rw [List.map_cons, List.map_cons, List.map_cons, List.map_nil,
    termContrib_a, termContrib_b, termContrib_c]
  rw [show ([['a'], ['b'], ['c']] : List Text).map
      (fun t => termFields contentC titleC t) = [2, 0, 0] from by decide]
  exact Prod.ext (by norm_num) (by norm_num)

theorem kwScoreRow_rowC :
    kwScoreRow [['a'], ['b'], ['c']] false rowC = some resC := by
  simp only [kwScoreRow, Bool.false_eq_true, if_false]
  rw [show lowerStr rowC.content = contentC from by decide]
  rw [show lowerStr rowC.title = titleC from by decide]
  rw [show ([['a'], ['b'], ['c']] : List Text).map (fun t => lowerStr t)
      = [['a'], ['b'], ['c']] from by decide]
  rw [kwFold_rowC]
  rw [if_pos (by norm_num : (1 : Nat) < ([['a'], ['b'], ['c']] : List Text).length)]
  rw [if_pos (by norm_num : (0 : ℚ) <
    ((3/5, 2) : ℚ × ℕ).1 + ((((3/5, 2) : ℚ × ℕ).2 : ℚ) /
      (([['a'], ['b'], ['c']] : List Text).length : ℚ)) * (5/10))]
  rw [show List.take 200 rowC.content = contentC from by decide]
  rw [show (((3/5, 2) : ℚ × ℕ).1 + ((((3/5, 2) : ℚ × ℕ).2 : ℚ) /
        (([['a'], ['b'], ['c']] : List Text).length : ℚ)) * (5/10)) ⊓ 1
      = (14/15 : ℚ) from by
    rw [min_eq_left (by norm_num [List.length_cons])]
    norm_num [List.length_cons]]
  rfl

theorem keywordSearch_rowC : keywordSearch [rowC] queryC 10 false = [resC] := by
  rw [keywordSearch]
  simp only [Bool.false_eq_true, if_false]
  rw [show pyWords (lowerStr queryC) = [['a'], ['b'], ['c']] from by decide]
  simp only [List.filterMap_cons, List.filterMap_nil, kwScoreRow_rowC]
  rfl

/-- C2 counterexample: for the candidate `rowC` (term `a` once in content at
position 100, once in the title) under the three-term query `a b c`, the
code assigns score `3/5 + 0.5 * (2/3) = 14/15` (the term counts once per
matched field), while the claimed formula with "number of distinct terms
matched" gives `3/5 + 0.5 * (1/3) = 23/30`. -/
theorem keyword_search_score_vs_claim :
    ¬ ((keywordSearch [rowC] queryC 10 false).map (·.score)
        = [claimedKwScore (lowerStr rowC.content) (lowerStr rowC.title)
            (pyWords (lowerStr queryC))]) := by
  rw [keywordSearch_rowC]
  rw [show lowerStr rowC.content = contentC from by decide]
  rw [show lowerStr rowC.title = titleC from by decide]
  rw [show pyWords (lowerStr queryC) = [['a'], ['b'], ['c']] from by decide]
  have hcl : claimedKwScore contentC titleC [['a'], ['b'], ['c']] = 23/30 := by
    simp only [claimedKwScore]
    rw [show (([['a'], ['b'], ['c']] : List Text).filter fun t =>
        0 < countOccs t contentC ∨ 0 < countOccs t titleC).length = 1 from by decide]
    rw [List.map_cons, List.map_cons, List.map_cons, List.map_nil,
      termContrib_a, termContrib_b, termContrib_c]
    rw [if_pos (by norm_num : (1 : Nat) < ([['a'], ['b'], ['c']] : List Text).length)]
    rw [min_eq_left (by norm_num)]
    norm_num
  rw [hcl]
  simp only [List.map_cons, List.map_nil, List.cons.injEq, and_true]
  intro hcontra
  have : (14/15 : ℚ) = 23/30 := by
    rw [show resC.score = 14/15 from rfl] at hcontra
    exact hcontra
  norm_num at this

/-- C2 witness: the concrete result returned for `rowC` has a positive score
clipped at `1.0`. -/
theorem keyword_search_scoring_witness :
    0 < resC.score ∧ resC.score ≤ 1 :=
  (keyword_search_scoring [rowC] queryC 10 false).2.1 resC
    (keywordSearch_rowC ▸ List.mem_cons_self resC [])

/-! ## Batch embedding alignment (C3) -/

theorem batchesAux_flatten (model : Text → Vec) (bs : Nat) (hbs : 1 ≤ bs) :
    ∀ fuel (l : List Text), l.length ≤ fuel →
      ((batchesAux bs fuel l).map fun b => b.map model).flatten = l.map model := by
  intro fuel
  induction fuel with
  | zero =>
    intro l hl
    rw [List.eq_nil_of_length_eq_zero (Nat.le_zero.mp hl)]
    rfl
  | succ n ih =>
    intro l hl
    cases l with
    | nil => rfl
    | cons x xs =>
      rw [batchesAux]
      simp only [List.map_cons, List.flatten_cons]
      rw [ih ((x :: xs).drop bs)
        (by simp only [List.length_drop, List.length_cons] at *; omega)]
      rw [← List.map_append, List.take_append_drop]
      all_goals simp

theorem batches_flatten (model : Text → Vec) (bs : Nat) (hbs : 1 ≤ bs)
    (l : List Text) :
    ((batches bs l).map fun b => b.map model).flatten = l.map model :=
  batchesAux_flatten model bs hbs l.length l (le_refl _)

theorem pass1From_succ (cache : Text → Option Vec) (maxLen : Nat) :
    ∀ (ts : List Text) (i : Nat),
      pass1From cache maxLen (i + 1) ts
        = ((pass1From cache maxLen i ts).1.map fun p => (p.1 + 1, p.2),
           (pass1From cache maxLen i ts).2.1,
           (pass1From cache maxLen i ts).2.2.map fun j => j + 1) := by
  intro ts
  induction ts with
  | nil => intro i; rfl
  | cons t rest ih =>
    intro i
    cases hb : isBlank t <;> cases hc : cache t <;>
      simp [pass1From, hb, hc, ih (i + 1), ih i]

theorem applyCached_shift (cached : List (Nat × Vec)) :
    ∀ (x : Option Vec) (res : List (Option Vec)),
      applyCached (cached.map fun p => (p.1 + 1, p.2)) (x :: res)
        = x :: applyCached cached res := by
  induction cached with
  | nil => intro x res; rfl
  | cons p rest ih =>
    intro x res
    obtain ⟨i, v⟩ := p
    simp only [List.map_cons, applyCached, List.foldl_cons, List.set_cons_succ]
    exact ih x (res.set i (some v))

theorem fillNew_shift :
    ∀ (idxs : List Nat) (x : Option Vec) (res : List (Option Vec)) (news : List Vec),
      fillNew (x :: res) (idxs.map fun j => j + 1) news
        = x :: fillNew res idxs news := by
  intro idxs
  induction idxs with
  | nil => intro x res news; rfl
  | cons i is ih =>
    intro x res news
    rw [List.map_cons, fillNew, fillNew]
    rw [List.getD_cons_succ]
    cases h : res.getD i none <;> simp only [h, List.set_cons_succ] <;> exact ih _ _ _

theorem assemble_core (maxLen : Nat) (cache : Text → Option Vec)
    (model : Text → Vec) :
    ∀ texts : List Text,
      (fillNew
        (applyCached (pass1From cache maxLen 0 texts).1
          (List.replicate texts.length none))
        (pass1From cache maxLen 0 texts).2.2
        ((pass1From cache maxLen 0 texts).2.1.map model)).filterMap id
      = (texts.filter fun t => !(isBlank t)).map
          (fun t => (cache t).getD (model (truncateText maxLen (pyStrip t)))) := by
  intro texts
  induction texts with
  | nil => rfl
  | cons t ts ih =>
    have hshift : pass1From cache maxLen (0 + 1) ts
        = ((pass1From cache maxLen 0 ts).1.map fun p => (p.1 + 1, p.2),
           (pass1From cache maxLen 0 ts).2.1,
           (pass1From cache maxLen 0 ts).2.2.map fun j => j + 1) :=
      pass1From_succ cache maxLen ts 0
    cases hb : isBlank t
    case false =>
      cases hc : cache t
      case none =>
        rw [pass1From, hshift]
        simp only [hb, Bool.false_eq_true, if_false, hc]
        rw [List.length_cons, List.replicate_succ]
        rw [applyCached_shift]
        rw [List.map_cons, fillNew]
        simp only [List.getD_cons_zero, List.set_cons_zero, List.headD_cons,
          List.tail_cons]
        rw [fillNew_shift]
        rw [List.filterMap_cons]
        simp only [id]
        simp only [List.filter_cons, hb, Bool.not_false, eq_self_iff_true, if_true]
        rw [List.map_cons, hc]
        simp only [Option.getD_none]
        rw [ih]
      case some e =>
        rw [pass1From, hshift]
        simp only [hb, Bool.false_eq_true, if_false, hc]
        rw [List.length_cons, List.replicate_succ]
        simp only [applyCached, List.foldl_cons, List.set_cons_zero]
        have : (pass1From cache maxLen 0 ts).1.foldl
            (fun r p => r.set p.1 (some p.2)) (some e :: List.replicate ts.length none)
            = applyCached (pass1From cache maxLen 0 ts).1
                (some e :: List.replicate ts.length none) := rfl
        rw [show ((pass1From cache maxLen 0 ts).1.map fun p => (p.1 + 1, p.2)).foldl
            (fun r p => r.set p.1 (some p.2))
            (some e :: List.replicate ts.length none)
          = applyCached ((pass1From cache maxLen 0 ts).1.map fun p => (p.1 + 1, p.2))
              (some e :: List.replicate ts.length none) from rfl]
        rw [applyCached_shift]
        rw [fillNew_shift]
        rw [List.filterMap_cons]
        simp only [id]
        simp only [List.filter_cons, hb, Bool.not_false, eq_self_iff_true, if_true]
        rw [List.map_cons, hc]
        simp only [Option.getD_some]
        rw [ih]
    case true =>
      rw [pass1From, hshift]
      simp only [hb, if_true]
      rw [List.length_cons, List.replicate_succ]
      rw [applyCached_shift]
      rw [fillNew_shift]
      rw [List.filterMap_cons]
      simp only [id]
      simp only [List.filter_cons, hb, Bool.not_true, Bool.false_eq_true, if_false]
      rw [ih]

/-- C3: `generate_embeddings_batch` returns exactly one vector per
non-empty (after stripping) input text, in input order: the output equals
the map, over the non-blank inputs in order, of "cached vector if the cache
hits, else the model applied to the stripped and truncated text".  Empty
inputs contribute nothing — no zero-vector placeholder — and the
correspondence holds for every cache state. -/
theorem generate_embeddings_batch_alignment (maxLen bs : Nat)
    (cache : Text → Option Vec) (model : Text → Vec) (texts : List Text)
    (hbs : 1 ≤ bs) :
    generateEmbeddingsBatch maxLen bs cache model texts
      = (texts.filter fun t => !(isBlank t)).map
          (fun t => (cache t).getD (model (truncateText maxLen (pyStrip t)))) ∧
    (generateEmbeddingsBatch maxLen bs cache model texts).length
      = (texts.filter fun t => !(isBlank t)).length := by
  have hmain : generateEmbeddingsBatch maxLen bs cache model texts
      = (texts.filter fun t => !(isBlank t)).map
          (fun t => (cache t).getD (model (truncateText maxLen (pyStrip t)))) := by
    rw [generateEmbeddingsBatch]
    split
    case isTrue h => rw [h]; rfl
    case isFalse h =>
      simp only []
      rw [batches_flatten model bs hbs]
      exact assemble_core maxLen cache model texts
  exact ⟨hmain, by rw [hmain, List.length_map]⟩

/-- C3 witness: on the concrete inputs `["ab", "", "cde"]` with batch size 1
and an empty cache, the batch call returns exactly the two vectors for the
non-empty texts, in order. -/
theorem generate_embeddings_batch_alignment_witness :
    generateEmbeddingsBatch 512 1 cacheNone modelLen textsW
      = (textsW.filter fun t => !(isBlank t)).map
          (fun t => (cacheNone t).getD (modelLen (truncateText 512 (pyStrip t)))) :=
  (generate_embeddings_batch_alignment 512 1 cacheNone modelLen textsW
    (by decide)).1

end Indexing
